import Mathlib

/-!
Verification of the magnetic-induction core of PlanetProfile
(`PlanetProfile/MagneticInduction/MagneticInduction.py`) against its
natural-language specification.

Modelling conventions:
* machine floats carrying radii, conductivities and tolerances are modelled
  as rationals (`ℚ`), so that all order comparisons made by the code are
  decidable; complex-valued moment data lives in a field `K`, instantiated
  with `ℂ` in the claim theorems (keeping the definitions polymorphic keeps
  them executable, since Mathlib's `ℂ` field structure is not);
* numpy arrays indexed by `[iPeak, int(m<0), n, m]` are modelled as functions
  from a 4-tuple of natural indices (`Cell`) to values, with Python's negative
  indexing resolved explicitly by `pyIdx`;
* in-place numpy assignments inside loops are modelled as a list of
  (cell, value) writes applied in program order by `applyWrites`;
* external collaborators that the spec excludes (the scipy ODE integrator,
  MoonMag's `AeList`/`get_all_Xid`/`get_chipq_from_CSpq_single`) are taken as
  abstract parameters of the functions that call them.
-/

namespace PlanetProfile

/-- Index type for the 4-index numpy moment arrays `[iPeak, int(m<0), n, m]`. -/
abbrev Cell := ℕ × ℕ × ℕ × ℕ

/-- Python negative-index resolution for an axis of size `sz`:
`a[m]` with `m < 0` reads `a[sz + m]`. -/
def pyIdx (sz : ℕ) (m : ℤ) : ℕ := (if m < 0 then (sz : ℤ) + m else m).toNat

variable {K : Type}

/-- Apply a list of in-place array writes in program order: later writes win. -/
def applyWrites (init : Cell → K) (ws : List (Cell × K)) : Cell → K :=
  ws.foldl (fun A w => Function.update A w.1 w.2) init

theorem applyWrites_nil (init : Cell → K) : applyWrites init [] = init := rfl

theorem applyWrites_cons (init : Cell → K) (w : Cell × K) (ws : List (Cell × K)) :
    applyWrites init (w :: ws) = applyWrites (Function.update init w.1 w.2) ws := rfl

/-- A cell never written keeps its initial value. -/
theorem applyWrites_of_not_written (init : Cell → K) (ws : List (Cell × K)) (c : Cell)
    (h : ∀ w ∈ ws, w.1 ≠ c) : applyWrites init ws c = init c := by
  induction ws generalizing init with
  | nil => rfl
  | cons w ws ih =>
    rw [applyWrites_cons, ih _ (fun w' hw' => h w' (List.mem_cons_of_mem _ hw'))]
    exact Function.update_noteq (Ne.symm (h w (List.mem_cons_self _ _))) _ _

/-- If every write aimed at a cell carries the same value and the cell is
written at least once, that value is the final one. -/
theorem applyWrites_of_written (init : Cell → K) (ws : List (Cell × K)) (c : Cell) (v : K)
    (hex : ∃ w ∈ ws, w.1 = c) (hval : ∀ w ∈ ws, w.1 = c → w.2 = v) :
    applyWrites init ws c = v := by
  induction ws generalizing init with
  | nil => obtain ⟨w, hw, _⟩ := hex; exact absurd hw (List.not_mem_nil w)
  | cons w ws ih =>
    rw [applyWrites_cons]
    by_cases hws : ∃ w' ∈ ws, w'.1 = c
    · exact ih _ hws (fun w' hw' => hval w' (List.mem_cons_of_mem _ hw'))
    · push_neg at hws
      rw [applyWrites_of_not_written _ _ _ hws]
      obtain ⟨w', hw', hc⟩ := hex
      rcases List.mem_cons.mp hw' with rfl | hmem
      · rw [hc, Function.update_same]
        exact hval w' (List.mem_cons_self _ _) hc
      · exact absurd hc (hws w' hmem)

/-! ### CalcInducedMoments: linear index lists (source lines 97-101)

`nLin = [n for n in range(1, nMax+1) for _ in range(-n, n+1)]`
`mLin = [m for n in range(1, nMax+1) for m in range(-n, n+1)]`
and the same lists capped at `nprmMax` (`nprmLin`, `mprmLin`). -/

/-- Degree list of the linearized moment ordering. -/
def nLinList (nMax : ℕ) : List ℕ :=
  (List.range nMax).flatMap (fun k => (List.range (2*(k+1)+1)).map (fun _ => k+1))

/-- Order list of the linearized moment ordering. -/
def mLinList (nMax : ℕ) : List ℤ :=
  (List.range nMax).flatMap
    (fun k => (List.range (2*(k+1)+1)).map (fun j : ℕ => (j : ℤ) - ((k : ℤ)+1)))

theorem mem_nLinList {nMax n : ℕ} : n ∈ nLinList nMax ↔ 1 ≤ n ∧ n ≤ nMax := by
  simp only [nLinList, List.mem_flatMap, List.mem_map, List.mem_range]
  constructor
  · rintro ⟨k, hk, _, _, rfl⟩; omega
  · rintro ⟨h1, h2⟩; exact ⟨n - 1, by omega, 0, by omega, by omega⟩

theorem mem_mLinList {nMax : ℕ} {m : ℤ} {n : ℕ}
    (h1 : 1 ≤ n) (h2 : n ≤ nMax) (hm1 : -(n:ℤ) ≤ m) (hm2 : m ≤ n) :
    m ∈ mLinList nMax := by
  unfold mLinList
  have hk : n - 1 < nMax := by omega
  have hj : (m + n).toNat < 2*((n - 1)+1)+1 := by omega
  have he : (((m + n).toNat : ℕ) : ℤ) - (((n - 1 : ℕ) : ℤ)+1) = m := by omega
  refine List.mem_flatMap.mpr ⟨n - 1, List.mem_range.mpr hk, ?_⟩
  exact List.mem_map.mpr ⟨(m + n).toNat, List.mem_range.mpr hj, he⟩

/-! ### CalcInducedMoments, layer (Srivastava1966) method, no asymmetry
(source lines 149-155):

```
for iPeak in range(nExc):
    for n in nprmLin:
        for m in mprmLin:
            Binm_nT[iPeak, int(m<0), n, m] = n/(n+1) * Benm_nT[iPeak, int(m<0), n, m] * Aen[iPeak, n]
```

The last-axis size of `Binm_nT`/`Benm_nT` is `nprmMax + pMax + 1`. -/

variable [Field K]

/-- The write performed by one iteration of the triple loop. -/
def symmWrite (sz : ℕ) (Benm : Cell → K) (Aen : ℕ → ℕ → K) (iPeak n : ℕ) (m : ℤ) :
    Cell × K :=
  ((iPeak, if m < 0 then 1 else 0, n, pyIdx sz m),
   (n : K)/((n : K)+1)
     * Benm (iPeak, if m < 0 then 1 else 0, n, pyIdx sz m) * Aen iPeak n)

/-- All writes of the spherically-symmetric `Binm` loop, in program order. -/
def symmWrites (nExc nprmMax pMax : ℕ) (Benm : Cell → K) (Aen : ℕ → ℕ → K) :
    List (Cell × K) :=
  (List.range nExc).flatMap (fun iPeak =>
    (nLinList nprmMax).flatMap (fun n =>
      (mLinList nprmMax).map (fun m =>
        symmWrite (nprmMax + pMax + 1) Benm Aen iPeak n m)))

/-- The `Binm_nT` array after the spherically-symmetric layer-method loop. -/
def Binm_symm (nExc nprmMax pMax : ℕ) (Benm : Cell → K) (Aen : ℕ → ℕ → K)
    (init : Cell → K) : Cell → K :=
  applyWrites init (symmWrites nExc nprmMax pMax Benm Aen)

/-- C1. In the layer (closed-form) induction method with asymmetry off, for every
excitation index `iPeak < nExc`, every degree `1 ≤ n ≤ nprmMax` and every order
`|m| ≤ n`, the induced moment `Binm_nT[iPeak, int(m<0), n, m]` equals
`n/(n+1) * Benm_nT[iPeak, int(m<0), n, m] * Aen[iPeak, n]`, for arbitrary complex
`Aen`, `Benm` and arbitrary initial array contents. -/
theorem C1_layer_symmetric_moment (nExc nprmMax pMax : ℕ) (Benm : Cell → ℂ)
    (Aen : ℕ → ℕ → ℂ) (init : Cell → ℂ) (iPeak n : ℕ) (m : ℤ)
    (hi : iPeak < nExc) (hn1 : 1 ≤ n) (hn2 : n ≤ nprmMax)
    (hm1 : -(n:ℤ) ≤ m) (hm2 : m ≤ n) :
    Binm_symm nExc nprmMax pMax Benm Aen init
        (iPeak, if m < 0 then 1 else 0, n, pyIdx (nprmMax + pMax + 1) m)
      = (n : ℂ)/((n : ℂ)+1)
          * Benm (iPeak, if m < 0 then 1 else 0, n, pyIdx (nprmMax + pMax + 1) m)
          * Aen iPeak n := by
  apply applyWrites_of_written
  · refine ⟨symmWrite (nprmMax + pMax + 1) Benm Aen iPeak n m, ?_, rfl⟩
    simp only [symmWrites, List.mem_flatMap, List.mem_map, List.mem_range]
    exact ⟨iPeak, hi, n, mem_nLinList.mpr ⟨hn1, hn2⟩,
           m, mem_mLinList hn1 hn2 hm1 hm2, rfl⟩
  · intro w hw hc
    simp only [symmWrites, List.mem_flatMap, List.mem_map, List.mem_range] at hw
    obtain ⟨i', _, n', _, m', _, rfl⟩ := hw
    simp only [symmWrite] at hc ⊢
    have hi' : i' = iPeak := congrArg (fun c : Cell => c.1) hc
    have hn' : n' = n := congrArg (fun c : Cell => c.2.2.1) hc
    rw [hc, hi', hn']

/-- Witness for C1 at `nExc = nprmMax = 1`, `pMax = 0`, unit forcing and
amplitude, `(n, m) = (1, 0)`. -/
theorem C1_layer_symmetric_moment_witness :
    (0:ℕ) < 1 ∧ (1:ℕ) ≤ 1 ∧ -((1:ℕ):ℤ) ≤ 0 ∧ (0:ℤ) ≤ ((1:ℕ):ℤ) ∧
    Binm_symm 1 1 0 (fun _ => (1:ℂ)) (fun _ _ => 1) (fun _ => 0)
        (0, if (0:ℤ) < 0 then 1 else 0, 1, pyIdx (1 + 0 + 1) 0)
      = ((1:ℕ):ℂ)/(((1:ℕ):ℂ)+1) * 1 * 1 :=
  ⟨by decide, by decide, by decide, by decide,
   C1_layer_symmetric_moment 1 1 0 (fun _ => (1:ℂ)) (fun _ _ => 1) (fun _ => 0) 0 1 0
     (by decide) (by decide) (by decide) (by decide) (by decide)⟩

/-! ### SolveForQ and fn_dQdr (source lines 364-385)

```
def SolveForQ(n, kBlw_pm, rBds_m, R_m, solveMethod, rMin=1e3):
    dQdr = fn_dQdr(n, kBlw_pm, rBds_m)
    Q = ODEsolve(dQdr, (rMin, rBds_m[-1]), [0j], method=solveMethod)
    Q = Q['y'][0,-1] * (rBds_m[-1]/R_m)**(n+2)
    return Q
```
with `fn_k` looking up `next((i for i, rBd_m in enumerate(rBds_m) if rBd_m >= ri_m))`
and `__call__` returning
`-k**2 * r * (n+1) / (2*n+1) / n * (Q - n/(n+1))**2 - (2*n+1) / r * Q`. -/

/-- First index of the list satisfying `p`, modelling
`next((i for i, x in enumerate(l) if p x))`; `none` models the uncaught
`StopIteration` raised by `next` on an exhausted generator. -/
def nextMatchIdx {α : Type} (p : α → Bool) : List α → Option ℕ
  | [] => none
  | a :: t => if p a then some 0 else (nextMatchIdx p t).map (· + 1)

theorem nextMatchIdx_eq_none {α : Type} (p : α → Bool) (l : List α)
    (h : ∀ a ∈ l, p a = false) : nextMatchIdx p l = none := by
  induction l with
  | nil => rfl
  | cons a t ih =>
    rw [nextMatchIdx, h a (List.mem_cons_self _ _),
        ih (fun x hx => h x (List.mem_cons_of_mem _ hx))]
    rfl

theorem nextMatchIdx_isSome_of_exists {α : Type} (p : α → Bool) (l : List α)
    (h : ∃ a ∈ l, p a = true) : ∃ i, nextMatchIdx p l = some i ∧ i < l.length := by
  induction l with
  | nil => obtain ⟨a, ha, _⟩ := h; exact absurd ha (List.not_mem_nil a)
  | cons a t ih =>
    rw [nextMatchIdx]
    by_cases hpa : p a = true
    · exact ⟨0, by rw [hpa]; rfl, Nat.succ_pos _⟩
    · have : ∃ x ∈ t, p x = true := by
        obtain ⟨x, hx, hpx⟩ := h
        rcases List.mem_cons.mp hx with rfl | hmem
        · exact absurd hpx hpa
        · exact ⟨x, hmem, hpx⟩
      obtain ⟨i, hi, hlt⟩ := ih this
      rw [Bool.not_eq_true] at hpa
      rw [hpa, hi]
      exact ⟨i + 1, rfl, by simpa using Nat.succ_lt_succ hlt⟩

theorem nextMatchIdx_eq_some_of_first {α : Type} (p : α → Bool) (l : List α) (i : ℕ)
    (a : α) (ha : l.get? i = some a) (hpa : p a = true)
    (hfirst : ∀ j, j < i → ∀ b, l.get? j = some b → p b = false) :
    nextMatchIdx p l = some i := by
  induction l generalizing i with
  | nil => simp at ha
  | cons x t ih =>
    rw [nextMatchIdx]
    cases i with
    | zero =>
      have hax : x = a := by simpa using ha
      rw [hax, hpa]; rfl
    | succ j =>
      have hx : p x = false := hfirst 0 (Nat.succ_pos j) x rfl
      rw [hx]
      have hrec : nextMatchIdx p t = some j :=
        ih j (by simpa using ha) (fun j' hj' b hb => hfirst (j' + 1)
          (Nat.succ_lt_succ hj') b (by simpa using hb))
      rw [hrec]
      rfl

/-- `fn_dQdr.fn_k`: the wavenumber of the layer whose outer boundary is the
first boundary with radius ≥ r (source lines 377-381). -/
def fn_k (kBlw : List K) (rBds : List ℚ) (r : ℚ) : Option K :=
  (nextMatchIdx (fun rBd => decide (r ≤ rBd)) rBds).bind (fun i => kBlw.get? i)

/-- `fn_dQdr.__call__`: the right-hand side of the ODE solved by `SolveForQ`
(source lines 383-385); partial because `fn_k` is. -/
def fn_dQdr_eval (n : ℕ) (kBlw : List K) (rBds : List ℚ) (r : ℚ) (Q : K) : Option K :=
  (fn_k kBlw rBds r).map (fun k =>
    -k^2 * (r : K) * ((n : K)+1) / (2*(n : K)+1) / (n : K) * (Q - (n : K)/((n : K)+1))^2
      - (2*(n : K)+1)/(r : K) * Q)

/-- `SolveForQ` with the scipy integrator abstracted (the spec excludes the
general ODE solver): the solver receives the derivative function, the
integration span `(rMin, rBds[-1])` and the initial value `0`, and returns the
final value `Q(rBds[-1])`; the result is scaled by `(rBds[-1]/R_m)^(n+2)`. -/
def SolveForQ (solver : (ℚ → K → Option K) → ℚ × ℚ → K → K)
    (n : ℕ) (kBlw : List K) (rBds : List ℚ) (R_m rMin : ℚ) : K :=
  solver (fn_dQdr_eval n kBlw rBds) (rMin, rBds.getLastD 0) 0
    * ((rBds.getLastD 0 / R_m : ℚ) : K)^(n+2)

/-- `Aen[:, nprm] = Q * (nprm+1) / nprm` (source line 119). -/
def AenNumeric (solver : (ℚ → K → Option K) → ℚ × ℚ → K → K)
    (n : ℕ) (kBlw : List K) (rBds : List ℚ) (R_m rMin : ℚ) : K :=
  SolveForQ solver n kBlw rBds R_m rMin * ((n : K)+1) / (n : K)

/-- Modelled from the spec: the right-hand side
`dQ/dr = −k(r)²·r·(n+1)/((2n+1)·n)·(Q − n/(n+1))² − (2n+1)/r · Q`
of the claim, with the two divisions written as a single division by the
product `(2n+1)·n`. -/
def dQdr_specFormula (n : ℕ) (k : K) (r : ℚ) (Q : K) : K :=
  -k^2 * (r : K) * ((n : K)+1) / ((2*(n : K)+1) * (n : K)) * (Q - (n : K)/((n : K)+1))^2
    - (2*(n : K)+1)/(r : K) * Q

/-- C2. In the numeric (Eckhardt1963) method: the degree-n amplitude is the
solver output for the initial-value problem started at `Q(rMin) = 0` over the
span `(rMin, rBds[-1])`, scaled by `(rBds[-1]/R_m)^(n+2) * (n+1)/n`; the
integrated derivative agrees with the spec formula
`−k(r)²·r·(n+1)/((2n+1)·n)·(Q − n/(n+1))² − (2n+1)/r·Q`; and the `k` used at
radius `r` is the entry of `kBlw` at the first boundary index `i` with
`rBds[i] ≥ r`, which satisfies `k² = i·μ0·ω·σ` whenever `kBlw` lists the layer
wavenumbers. -/
theorem C2_numeric_Q_ode (solver : (ℚ → ℂ → Option ℂ) → ℚ × ℚ → ℂ → ℂ)
    (n : ℕ) (kBlw : List ℂ) (rBds : List ℚ) (R_m rMin r : ℚ) (Q : ℂ)
    (mu0 omega sigma : ℚ) (i : ℕ) (b : ℚ) (k : ℂ)
    (hb : rBds.get? i = some b) (hrb : r ≤ b)
    (hfirst : ∀ j, j < i → ∀ bj, rBds.get? j = some bj → bj < r)
    (hk : kBlw.get? i = some k)
    (hwave : k^2 = Complex.I * (mu0 : ℂ) * (omega : ℂ) * (sigma : ℂ)) :
    AenNumeric solver n kBlw rBds R_m rMin
        = solver (fn_dQdr_eval n kBlw rBds) (rMin, rBds.getLastD 0) 0
            * ((rBds.getLastD 0 / R_m : ℚ) : ℂ)^(n+2) * ((n : ℂ)+1) / (n : ℂ)
      ∧ fn_k kBlw rBds r = some k
      ∧ fn_dQdr_eval n kBlw rBds r Q = some (dQdr_specFormula n k r Q)
      ∧ k^2 = Complex.I * (mu0 : ℂ) * (omega : ℂ) * (sigma : ℂ) := by
  have hidx : nextMatchIdx (fun rBd => decide (r ≤ rBd)) rBds = some i := by
    apply nextMatchIdx_eq_some_of_first _ _ _ b hb (by simpa using hrb)
    intro j hj bj hbj
    simpa using not_le.mpr (hfirst j hj bj hbj)
  have hfnk : fn_k kBlw rBds r = some k := by
    rw [fn_k, hidx, Option.some_bind, hk]
  refine ⟨rfl, hfnk, ?_, hwave⟩
  rw [fn_dQdr_eval, hfnk, Option.map_some', dQdr_specFormula, div_div]

/-- Witness for C2: one boundary at radius 1, trivial solver, wavenumber 0. -/
theorem C2_numeric_Q_ode_witness :
    (1 : ℚ) ≤ 1 ∧
    (AenNumeric (fun _ _ y0 => y0) 1 [(0 : ℂ)] [(1 : ℚ)] 1 0
        = (fun _ _ y0 => y0) (fn_dQdr_eval 1 [(0 : ℂ)] [(1 : ℚ)]) ((0 : ℚ), [(1 : ℚ)].getLastD 0) 0
            * (([(1 : ℚ)].getLastD 0 / 1 : ℚ) : ℂ)^(1+2) * (((1:ℕ) : ℂ)+1) / ((1:ℕ) : ℂ)
      ∧ fn_k [(0 : ℂ)] [(1 : ℚ)] 1 = some 0
      ∧ fn_dQdr_eval 1 [(0 : ℂ)] [(1 : ℚ)] 1 0 = some (dQdr_specFormula 1 0 1 0)
      ∧ (0 : ℂ)^2 = Complex.I * ((0 : ℚ) : ℂ) * ((0 : ℚ) : ℂ) * ((0 : ℚ) : ℂ)) :=
  ⟨le_refl 1,
   C2_numeric_Q_ode (fun _ _ y0 => y0) 1 [(0 : ℂ)] [(1 : ℚ)] 1 0 1 0 0 0 0 0 1 0
     rfl (by decide) (fun j hj bj _ => absurd hj (Nat.not_lt_zero j))
     rfl (by ring)⟩

/-- C10. `fn_k` is a partial function: for an evaluation radius strictly above
every boundary it returns `none` (the uncaught StopIteration of `next`), while
for any radius within `SolveForQ`'s integration span, i.e. at most the last
boundary radius `rBds[-1]`, the lookup succeeds, so the error branch is
unreachable there. -/
theorem C10_fn_k_partial_safety (kBlw : List ℂ) (rBds : List ℚ) (r rOut : ℚ)
    (hlen : kBlw.length = rBds.length) (hne : rBds ≠ [])
    (hout : ∀ b ∈ rBds, b < rOut) (hin : r ≤ rBds.getLastD 0) :
    fn_k kBlw rBds rOut = none ∧ (fn_k kBlw rBds r).isSome = true := by
  constructor
  · rw [fn_k, nextMatchIdx_eq_none]
    · rfl
    · intro a ha
      simpa using not_le.mpr (hout a ha)
  · have hmem : rBds.getLastD 0 ∈ rBds := by
      rw [List.getLastD_eq_getLast?]
      cases hl : rBds.getLast? with
      | none => exact absurd (List.getLast?_eq_none_iff.mp hl) hne
      | some a => exact List.mem_of_mem_getLast? hl
    obtain ⟨i, hi, hlt⟩ := nextMatchIdx_isSome_of_exists
      (fun rBd => decide (r ≤ rBd)) rBds ⟨rBds.getLastD 0, hmem, by simpa using hin⟩
    rw [fn_k, hi, Option.some_bind]
    have : i < kBlw.length := hlen ▸ hlt
    rw [List.get?_eq_getElem?, List.getElem?_eq_getElem this]
    rfl

/-- Witness for C10: one boundary at radius 1; evaluation at r = 1 succeeds,
evaluation at r = 2 hits the StopIteration branch. -/
theorem C10_fn_k_partial_safety_witness :
    (1 : ℚ) ≤ [(1 : ℚ)].getLastD 0 ∧
    (fn_k [(0 : ℂ)] [(1 : ℚ)] 2 = none ∧ (fn_k [(0 : ℂ)] [(1 : ℚ)] 1).isSome = true) :=
  ⟨by decide,
   C10_fn_k_partial_safety [(0 : ℂ)] [(1 : ℚ)] 1 2 rfl (by decide)
     (by intro b hb; simp only [List.mem_singleton] at hb; rw [hb]; decide)
     (by decide)⟩

/-! ### SetupInduction: conductivity floors and layer collapse
(source lines 438-441 and 469-471)

```
sigmaInduct_Sm[np.logical_or(np.isnan(sigmaInduct_Sm), sigmaInduct_Sm == 0)] = Constants.sigmaDef_Sm
sigmaInduct_Sm[sigmaInduct_Sm < Constants.sigmaMin_Sm] = Constants.sigmaDef_Sm
...
iChange = [i for i,sig in enumerate(sigmaInduct_Sm) if sig != np.append(sigmaInduct_Sm, np.nan)[i+1]]
Planet.Magnetic.sigmaLayers_Sm = sigmaInduct_Sm[iChange]
Planet.Magnetic.rSigChange_m = rLayers_m[iChange]
```
-/

/-- Conductivity clean-up (source lines 438-441): a non-finite entry
(modelled as `none`) or an exactly-zero entry becomes the default, then any
entry below the minimum threshold becomes the default as well.
`Constants.sigmaDef_Sm`/`Constants.sigmaMin_Sm` live in `defineStructs`,
outside the excerpted sources, so they are parameters; the collapse invariants
hold for any values. -/
def floorSigma (sigmaDef sigmaMin : ℚ) (s : Option ℚ) : ℚ :=
  let v1 := match s with
    | none => sigmaDef
    | some v => if v = 0 then sigmaDef else v
  if v1 < sigmaMin then sigmaDef else v1

/-- `iChange` (source line 469): the indices whose conductivity differs from
the next layer's; the appended `np.nan` compares unequal to everything, which
`get?` past the end (`none`) mirrors, so the last index is always kept. -/
def iChange (sigma : List ℚ) : List ℕ :=
  (List.range sigma.length).filter (fun i => decide (sigma.get? i ≠ sigma.get? (i+1)))

/-- `sigmaLayers_Sm = sigmaInduct_Sm[iChange]` (source line 470). -/
def sigmaLayers (sigma : List ℚ) : List ℚ :=
  (iChange sigma).map (fun i => sigma.getD i 0)

/-- `rSigChange_m = rLayers_m[iChange]` (source line 471). -/
def rSigChange (rLayers sigma : List ℚ) : List ℚ :=
  (iChange sigma).map (fun i => rLayers.getD i 0)

theorem iChange_cons (a : ℚ) (t : List ℚ) :
    iChange (a :: t)
      = (if some a ≠ t.get? 0 then [0] else []) ++ (iChange t).map (· + 1) := by
  unfold iChange
  rw [List.length_cons, List.range_succ_eq_map, List.filter_cons, List.filter_map]
  have hcomp : (List.range t.length).filter
        ((fun i => decide ((a :: t).get? i ≠ (a :: t).get? (i+1))) ∘ Nat.succ)
      = (List.range t.length).filter (fun i => decide (t.get? i ≠ t.get? (i+1))) := rfl
  rw [hcomp]
  simp only [List.get?_cons_zero, List.get?_cons_succ, decide_eq_true_eq]
  by_cases h : some a ≠ t.get? 0
  · rw [if_pos h, if_pos h]; rfl
  · rw [if_neg h, if_neg h]; rfl

theorem sigmaLayers_cons (a : ℚ) (t : List ℚ) :
    sigmaLayers (a :: t)
      = if some a ≠ t.get? 0 then a :: sigmaLayers t else sigmaLayers t := by
  unfold sigmaLayers
  rw [iChange_cons, List.map_append, List.map_map]
  have hmap : (iChange t).map ((fun i => (a :: t).getD i 0) ∘ (· + 1))
      = (iChange t).map (fun i => t.getD i 0) := rfl
  rw [hmap]
  by_cases h : some a ≠ t.get? 0
  · rw [if_pos h, if_pos h]; rfl
  · rw [if_neg h, if_neg h]; rfl

theorem rSigChange_cons (x a : ℚ) (rs t : List ℚ) :
    rSigChange (x :: rs) (a :: t)
      = if some a ≠ t.get? 0 then x :: rSigChange rs t else rSigChange rs t := by
  unfold rSigChange
  rw [iChange_cons, List.map_append, List.map_map]
  have hmap : (iChange t).map ((fun i => (x :: rs).getD i 0) ∘ (· + 1))
      = (iChange t).map (fun i => rs.getD i 0) := rfl
  rw [hmap]
  by_cases h : some a ≠ t.get? 0
  · rw [if_pos h, if_pos h]; rfl
  · rw [if_neg h, if_neg h]; rfl

/-- The first collapsed conductivity is the first conductivity of the run it
represents. -/
theorem sigmaLayers_head (t : List ℚ) (h : t ≠ []) :
    (sigmaLayers t).head? = t.get? 0 := by
  induction t with
  | nil => exact absurd rfl h
  | cons a t ih =>
    rw [sigmaLayers_cons]
    by_cases hch : some a ≠ t.get? 0
    · rw [if_pos hch]; rfl
    · rw [if_neg hch]
      push_neg at hch
      have ht : t ≠ [] := by
        intro hnil
        rw [hnil] at hch
        exact Option.noConfusion hch
      rw [ih ht, ← hch]
      rfl

/-- Collapse invariant: no two adjacent collapsed layers share a conductivity. -/
theorem sigmaLayers_chain_ne (t : List ℚ) : (sigmaLayers t).Chain' (· ≠ ·) := by
  induction t with
  | nil => exact List.chain'_nil
  | cons a t ih =>
    rw [sigmaLayers_cons]
    by_cases hch : some a ≠ t.get? 0
    · rw [if_pos hch]
      rw [List.chain'_cons']
      refine ⟨?_, ih⟩
      intro b hb
      by_cases ht : t = []
      · rw [ht] at hb; exact absurd hb (by simp [sigmaLayers, iChange])
      · rw [sigmaLayers_head t ht] at hb
        intro hab
        exact hch (hab ▸ hb.symm)
    · rw [if_neg hch]; exact ih

/-- The collapsed radius list is a sublist of the input radius list. -/
theorem rSigChange_sublist (rs t : List ℚ) (hlen : rs.length = t.length) :
    (rSigChange rs t).Sublist rs := by
  induction t generalizing rs with
  | nil =>
    have : rs = [] := List.length_eq_zero.mp hlen
    subst this
    exact List.Sublist.refl _
  | cons a t ih =>
    cases rs with
    | nil => exact absurd hlen.symm (by simp)
    | cons x rs =>
      rw [rSigChange_cons]
      have hlen' : rs.length = t.length := by simpa using hlen
      by_cases hch : some a ≠ t.get? 0
      · rw [if_pos hch]; exact (ih rs hlen').cons₂ x
      · rw [if_neg hch]; exact (ih rs hlen').cons x

/-- C4. After the layer-reduction collapse of `SetupInduction`, for every input
profile whose radii are strictly increasing (the flipped, valid profile), the
output radii are strictly increasing and no two adjacent output layers have
equal conductivity, for any floor constants and any raw conductivities
(including non-finite and zero entries). -/
theorem C4_layer_reduction_invariants (sigmaDef sigmaMin : ℚ) (rLayers : List ℚ)
    (sigmaInduct : List (Option ℚ))
    (hlen : rLayers.length = sigmaInduct.length)
    (hsort : rLayers.Pairwise (· < ·)) :
    (rSigChange rLayers (sigmaInduct.map (floorSigma sigmaDef sigmaMin))).Pairwise (· < ·)
      ∧ (sigmaLayers (sigmaInduct.map (floorSigma sigmaDef sigmaMin))).Chain' (· ≠ ·) := by
  constructor
  · exact List.Pairwise.sublist (rSigChange_sublist rLayers _ (by simpa using hlen)) hsort
  · exact sigmaLayers_chain_ne _

/-- Witness for C4: radii `[1, 2, 3]`, conductivities `[NaN, 1, 1]` with
default 5 and minimum 0: floors give `[5, 1, 1]`, collapse keeps radii `[1, 3]`
and conductivities `[5, 1]`. -/
theorem C4_layer_reduction_invariants_witness :
    ([(1 : ℚ), 2, 3].length = [Option.none, some (1 : ℚ), some 1].length
      ∧ [(1 : ℚ), 2, 3].Pairwise (· < ·))
    ∧ ((rSigChange [(1 : ℚ), 2, 3]
          ([Option.none, some (1 : ℚ), some 1].map (floorSigma 5 0))).Pairwise (· < ·)
      ∧ (sigmaLayers
          ([Option.none, some (1 : ℚ), some 1].map (floorSigma 5 0))).Chain' (· ≠ ·)) :=
  ⟨⟨by decide, by decide⟩,
   C4_layer_reduction_invariants 5 0 [(1 : ℚ), 2, 3] [Option.none, some (1 : ℚ), some 1]
     (by decide) (by decide)⟩

/-! ### ReloadMoments radius rescaling (source lines 228-243)

```
Rre_m = reload['R_km'][0,0]*1e3
if (Rre_m - Planet.Bulk.R_m) / Planet.Bulk.R_m > 1e-6:
    log.warning(...)
    dipScaling = (Planet.Bulk.R_m / Rre_m)**3
    Planet.Magnetic.Amp *= dipScaling
    for comp in ['x', 'y', 'z']:
        Planet.Magnetic.Bi1xyz_nT[comp] *= dipScaling
    for n in range(1, np.max(Planet.Magnetic.nLin)+1):
        scaling = (Planet.Bulk.R_m / Rre_m)**(n+2)
        Planet.Magnetic.Aen[:, n] *= scaling
        Planet.Magnetic.Binm_nT[:,:,n,:] *= scaling
        Planet.Magnetic.BinmLin_nT[:, Planet.Magnetic.nLin == n] *= scaling
```

The persisted `Aen` array has exactly `nprmMax + 1` columns (created at line
104, saved at line 190, reloaded at line 219), while `np.max(nLin)` is
`nprmMax + pMax`; the second axis of `Binm_nT`/`BinmLin_nT` extends to
`nprmMax + pMax`, so only the `Aen[:, n]` access can leave its array.  The
loop is therefore fallible: whenever `pMax ≥ 1` in the persisted run it
raises an uncaught IndexError at `n = nprmMax + 1`, modelled by `none`. -/

/-- The arrays of a persisted `InducedMomentSet` that radius rescaling
touches.  `AenCols` is the column count of the persisted `Aen` array
(`nprmMax + 1` in the source); `Aen i n` is meaningful for `n < AenCols` and
indexing at or past `AenCols` raises IndexError. -/
structure MomentArrays (K : Type) where
  Amp : ℕ → ℚ
  Bi1x : ℕ → K
  Bi1y : ℕ → K
  Bi1z : ℕ → K
  AenCols : ℕ
  Aen : ℕ → ℕ → K
  Binm : Cell → K
  BinmLin : ℕ × ℕ → K

/-- The in-bounds body of one iteration of `for n in range(1, np.max(nLin)+1)`
(source lines 239-243): scale `Aen[:, n]`, `Binm[:, :, n, :]` and the
`BinmLin` columns where `nLin == n` by `(R/Rre)^(n+2)`. -/
def reloadScaleApply (R Rre : ℚ) (nLin : List ℕ) (M : MomentArrays K) (n : ℕ) :
    MomentArrays K :=
  { M with
    Aen := fun i n' =>
      if n' = n then M.Aen i n' * ((R/Rre : ℚ) : K)^(n+2) else M.Aen i n',
    Binm := fun c =>
      if c.2.2.1 = n then M.Binm c * ((R/Rre : ℚ) : K)^(n+2) else M.Binm c,
    BinmLin := fun ij =>
      if nLin.get? ij.2 = some n then M.BinmLin ij * ((R/Rre : ℚ) : K)^(n+2)
      else M.BinmLin ij }

/-- One iteration of the rescale loop: the access `Planet.Magnetic.Aen[:, n]`
(source line 241) is in bounds only for `n < AenCols`; past the end numpy
raises IndexError, which aborts `ReloadMoments` (modelled by `none`). -/
def reloadScaleStep (R Rre : ℚ) (nLin : List ℕ) (M : MomentArrays K) (n : ℕ) :
    Option (MomentArrays K) :=
  if n < M.AenCols then some (reloadScaleApply R Rre nLin M n) else none

/-- `np.max` of a list of naturals. -/
def npMax (l : List ℕ) : ℕ := l.foldr max 0

/-- The radius check and rescaling of `ReloadMoments` (source lines 228-243).
`none` models the uncaught IndexError of the rescale loop; otherwise the
returned boolean records whether the warning was logged, which happens exactly
when the signed relative mismatch `(Rre - R)/R` exceeds `1e-6`. -/
def ReloadMomentsScale (R Rre : ℚ) (nLin : List ℕ) (M : MomentArrays K) :
    Option (Bool × MomentArrays K) :=
  if (Rre - R) / R > 1/1000000 then
    ((List.range' 1 (npMax nLin)).foldlM (reloadScaleStep R Rre nLin)
      { M with
        Amp := fun i => M.Amp i * (R/Rre)^3,
        Bi1x := fun i => M.Bi1x i * ((R/Rre : ℚ) : K)^3,
        Bi1y := fun i => M.Bi1y i * ((R/Rre : ℚ) : K)^3,
        Bi1z := fun i => M.Bi1z i * ((R/Rre : ℚ) : K)^3 }).map (fun Mres => (true, Mres))
  else some (false, M)

/-- When every visited degree is inside the persisted `Aen` array the loop
never raises and reduces to the pure fold. -/
theorem foldlM_scale_eq (R Rre : ℚ) (nLin : List ℕ) (L : List ℕ)
    (M : MomentArrays K) (h : ∀ k ∈ L, k < M.AenCols) :
    L.foldlM (reloadScaleStep R Rre nLin) M
      = some (L.foldl (reloadScaleApply R Rre nLin) M) := by
  induction L generalizing M with
  | nil => rfl
  | cons a L ih =>
    rw [List.foldlM_cons, List.foldl_cons]
    have hstep : reloadScaleStep R Rre nLin M a
        = some (reloadScaleApply R Rre nLin M a) := by
      rw [reloadScaleStep, if_pos (h a (List.mem_cons_self _ _))]
    rw [hstep]
    exact ih _ (fun k hk => h k (List.mem_cons_of_mem _ hk))

/-- As soon as some visited degree reaches the `Aen` column count the loop
raises IndexError. -/
theorem foldlM_scale_none (R Rre : ℚ) (nLin : List ℕ) (L : List ℕ)
    (M : MomentArrays K) (h : ∃ k ∈ L, M.AenCols ≤ k) :
    L.foldlM (reloadScaleStep R Rre nLin) M = none := by
  induction L generalizing M with
  | nil => obtain ⟨k, hk, _⟩ := h; exact absurd hk (List.not_mem_nil k)
  | cons a L ih =>
    rw [List.foldlM_cons]
    by_cases ha : a < M.AenCols
    · have hstep : reloadScaleStep R Rre nLin M a
          = some (reloadScaleApply R Rre nLin M a) := by
        rw [reloadScaleStep, if_pos ha]
      rw [hstep]
      apply ih
      obtain ⟨k, hk, hck⟩ := h
      rcases List.mem_cons.mp hk with rfl | hmem
      · omega
      · exact ⟨k, hmem, hck⟩
    · have hstep : reloadScaleStep R Rre nLin M a = none := by
        rw [reloadScaleStep, if_neg ha]
      rw [hstep]
      rfl

theorem foldl_scale_Amp (R Rre : ℚ) (nLin : List ℕ) (L : List ℕ) (M : MomentArrays K) :
    (L.foldl (reloadScaleApply R Rre nLin) M).Amp = M.Amp := by
  induction L generalizing M with
  | nil => rfl
  | cons a L ih => rw [List.foldl_cons, ih]; rfl

theorem foldl_scale_Bi1 (R Rre : ℚ) (nLin : List ℕ) (L : List ℕ) (M : MomentArrays K) :
    (L.foldl (reloadScaleApply R Rre nLin) M).Bi1x = M.Bi1x
    ∧ (L.foldl (reloadScaleApply R Rre nLin) M).Bi1y = M.Bi1y
    ∧ (L.foldl (reloadScaleApply R Rre nLin) M).Bi1z = M.Bi1z := by
  induction L generalizing M with
  | nil => exact ⟨rfl, rfl, rfl⟩
  | cons a L ih =>
    rw [List.foldl_cons]
    exact ⟨(ih _).1, (ih _).2.1, (ih _).2.2⟩

theorem foldl_scale_Aen (R Rre : ℚ) (nLin : List ℕ) (L : List ℕ) (hL : L.Nodup)
    (M : MomentArrays K) (i n : ℕ) :
    (L.foldl (reloadScaleApply R Rre nLin) M).Aen i n
      = if n ∈ L then M.Aen i n * ((R/Rre : ℚ) : K)^(n+2) else M.Aen i n := by
  induction L generalizing M with
  | nil => simp
  | cons a L ih =>
    rw [List.foldl_cons, ih (List.Nodup.of_cons hL)]
    by_cases hna : n = a
    · subst hna
      rw [if_neg (List.nodup_cons.mp hL).1, if_pos (List.mem_cons_self _ _)]
      simp [reloadScaleApply]
    · by_cases hnL : n ∈ L
      · rw [if_pos hnL, if_pos (List.mem_cons_of_mem _ hnL)]
        simp [reloadScaleApply, hna]
      · rw [if_neg hnL, if_neg (by simp [hna, hnL])]
        simp [reloadScaleApply, hna]

theorem foldl_scale_Binm (R Rre : ℚ) (nLin : List ℕ) (L : List ℕ) (hL : L.Nodup)
    (M : MomentArrays K) (c : Cell) :
    (L.foldl (reloadScaleApply R Rre nLin) M).Binm c
      = if c.2.2.1 ∈ L then M.Binm c * ((R/Rre : ℚ) : K)^(c.2.2.1+2) else M.Binm c := by
  induction L generalizing M with
  | nil => simp
  | cons a L ih =>
    rw [List.foldl_cons, ih (List.Nodup.of_cons hL)]
    by_cases hna : c.2.2.1 = a
    · rw [hna, if_neg (hna ▸ (List.nodup_cons.mp hL).1), if_pos (List.mem_cons_self _ _)]
      simp [reloadScaleApply, hna]
    · by_cases hnL : c.2.2.1 ∈ L
      · rw [if_pos hnL, if_pos (List.mem_cons_of_mem _ hnL)]
        simp [reloadScaleApply, hna]
      · rw [if_neg hnL, if_neg (by simp [hna, hnL])]
        simp [reloadScaleApply, hna]

theorem foldl_scale_BinmLin (R Rre : ℚ) (nLin : List ℕ) (L : List ℕ) (hL : L.Nodup)
    (M : MomentArrays K) (ij : ℕ × ℕ) (n : ℕ) (hj : nLin.get? ij.2 = some n) :
    (L.foldl (reloadScaleApply R Rre nLin) M).BinmLin ij
      = if n ∈ L then M.BinmLin ij * ((R/Rre : ℚ) : K)^(n+2) else M.BinmLin ij := by
  induction L generalizing M with
  | nil => simp
  | cons a L ih =>
    rw [List.foldl_cons, ih (List.Nodup.of_cons hL)]
    have hstep : (reloadScaleApply R Rre nLin M a).BinmLin ij
        = if nLin.get? ij.2 = some a then M.BinmLin ij * ((R/Rre : ℚ) : K)^(a+2)
          else M.BinmLin ij := rfl
    by_cases hna : n = a
    · subst hna
      rw [if_neg (List.nodup_cons.mp hL).1, if_pos (List.mem_cons_self _ _), hstep,
          if_pos hj]
    · have hne : ¬ nLin.get? ij.2 = some a := by
        rw [hj]
        intro hcontra
        exact hna (Option.some.inj hcontra)
      by_cases hnL : n ∈ L
      · rw [if_pos hnL, if_pos (List.mem_cons_of_mem _ hnL), hstep, if_neg hne]
      · rw [if_neg hnL, if_neg (by simp [hna, hnL]), hstep, if_neg hne]

/-- C3 counterexample: the current radius `R = 2` and the stored radius
`Rre = 1` differ by 100% of `R`, yet the reload returns with no warning and
every array untouched (the degree-1 amplitude stays `1` instead of becoming
`(R/Rre)^3 = 8`), because the source tests the signed mismatch
`(Rre - R)/R > 1e-6` without an absolute value, and here the mismatch is
negative. -/
theorem C3_reload_no_rescale_counterexample :
    ReloadMomentsScale 2 1 [1]
        ({ Amp := fun _ => 1, Bi1x := fun _ => 1, Bi1y := fun _ => 1, Bi1z := fun _ => 1,
           AenCols := 2, Aen := fun _ _ => 1, Binm := fun _ => 1, BinmLin := fun _ => 1 }
          : MomentArrays ℂ)
      = some (false,
          { Amp := fun _ => 1, Bi1x := fun _ => 1, Bi1y := fun _ => 1, Bi1z := fun _ => 1,
            AenCols := 2, Aen := fun _ _ => 1, Binm := fun _ => 1, BinmLin := fun _ => 1 })
    ∧ ((1 : ℂ) ≠ 1 * ((2/1 : ℚ) : ℂ)^(1+2)) := by
  have hcond : ¬ ((1 - 2 : ℚ) / 2 > 1/1000000) := by norm_num
  refine ⟨?_, ?_⟩
  · rw [ReloadMomentsScale, if_neg hcond]
  · rw [one_mul]
    intro h
    have : ((2/1 : ℚ) : ℂ)^(1+2) = 8 := by norm_num
    rw [this] at h
    exact (by norm_num : (1 : ℂ) ≠ 8) h

/-- C3 (amended). The warning and rescaling fire only when the stored radius
`Rre` exceeds the current radius `R` by more than the signed relative tolerance
`(Rre - R)/R > 1e-6` (not for any differing radius).  When triggered on a
persisted set whose `max(nLin)` fits inside the `nprmMax + 1` columns of the
persisted `Aen` array (a spherically symmetric save, `pMax = 0`), the reload
completes and every degree `n` in `1..max(nLin)` has `Aen[:, n]`,
`Binm[:,:,n,:]` and the `BinmLin` columns with `nLin == n` rescaled by exactly
`(R/Rre)^(n+2)`, and the dipole diagnostics `Amp`, `Bi1x/y/z` by `(R/Rre)^3`.
But when `max(nLin)` reaches the `Aen` column count (any asymmetric save,
`pMax ≥ 1`), the loop's access `Aen[:, n]` at `n = nprmMax + 1` is out of
bounds and `ReloadMoments` aborts with an uncaught IndexError. -/
theorem C3_reload_scaling_amended (R Rre : ℚ) (nLin nLinAsym : List ℕ)
    (M Masym : MomentArrays ℂ) (i iPeak s mm j n : ℕ)
    (hwarn : (Rre - R) / R > 1/1000000)
    (hn1 : 1 ≤ n) (hn2 : n ≤ npMax nLin) (hj : nLin.get? j = some n)
    (hcols : npMax nLin < M.AenCols)
    (hover1 : 1 ≤ Masym.AenCols) (hover2 : Masym.AenCols ≤ npMax nLinAsym) :
    (ReloadMomentsScale R Rre nLin M).isSome = true
    ∧ ((ReloadMomentsScale R Rre nLin M).getD (false, M)).1 = true
    ∧ ((ReloadMomentsScale R Rre nLin M).getD (false, M)).2.Aen i n
        = M.Aen i n * ((R/Rre : ℚ) : ℂ)^(n+2)
    ∧ ((ReloadMomentsScale R Rre nLin M).getD (false, M)).2.Binm (iPeak, s, n, mm)
        = M.Binm (iPeak, s, n, mm) * ((R/Rre : ℚ) : ℂ)^(n+2)
    ∧ ((ReloadMomentsScale R Rre nLin M).getD (false, M)).2.BinmLin (i, j)
        = M.BinmLin (i, j) * ((R/Rre : ℚ) : ℂ)^(n+2)
    ∧ ((ReloadMomentsScale R Rre nLin M).getD (false, M)).2.Amp i
        = M.Amp i * (R/Rre)^3
    ∧ ((ReloadMomentsScale R Rre nLin M).getD (false, M)).2.Bi1x i
        = M.Bi1x i * ((R/Rre : ℚ) : ℂ)^3
    ∧ ((ReloadMomentsScale R Rre nLin M).getD (false, M)).2.Bi1y i
        = M.Bi1y i * ((R/Rre : ℚ) : ℂ)^3
    ∧ ((ReloadMomentsScale R Rre nLin M).getD (false, M)).2.Bi1z i
        = M.Bi1z i * ((R/Rre : ℚ) : ℂ)^3
    ∧ ReloadMomentsScale R Rre nLinAsym Masym = none := by
  have hmem : n ∈ List.range' 1 (npMax nLin) := by
    rw [List.mem_range'_1]
    omega
  have hnd : (List.range' 1 (npMax nLin)).Nodup :=
    List.nodup_range' 1 (npMax nLin) 1 Nat.one_pos
  have hall : ∀ k ∈ List.range' 1 (npMax nLin), k < M.AenCols := by
    intro k hk
    rw [List.mem_range'_1] at hk
    omega
  have hsome : ReloadMomentsScale R Rre nLin M
      = some (true, (List.range' 1 (npMax nLin)).foldl (reloadScaleApply R Rre nLin)
        { M with
          Amp := fun i => M.Amp i * (R/Rre)^3,
          Bi1x := fun i => M.Bi1x i * ((R/Rre : ℚ) : ℂ)^3,
          Bi1y := fun i => M.Bi1y i * ((R/Rre : ℚ) : ℂ)^3,
          Bi1z := fun i => M.Bi1z i * ((R/Rre : ℚ) : ℂ)^3 }) := by
    rw [ReloadMomentsScale, if_pos hwarn,
        foldlM_scale_eq R Rre nLin (List.range' 1 (npMax nLin))
          { M with
            Amp := fun i => M.Amp i * (R/Rre)^3,
            Bi1x := fun i => M.Bi1x i * ((R/Rre : ℚ) : ℂ)^3,
            Bi1y := fun i => M.Bi1y i * ((R/Rre : ℚ) : ℂ)^3,
            Bi1z := fun i => M.Bi1z i * ((R/Rre : ℚ) : ℂ)^3 } hall,
        Option.map_some']
  have hnone : ReloadMomentsScale R Rre nLinAsym Masym = none := by
    rw [ReloadMomentsScale, if_pos hwarn,
        foldlM_scale_none R Rre nLinAsym (List.range' 1 (npMax nLinAsym))
          { Masym with
            Amp := fun i => Masym.Amp i * (R/Rre)^3,
            Bi1x := fun i => Masym.Bi1x i * ((R/Rre : ℚ) : ℂ)^3,
            Bi1y := fun i => Masym.Bi1y i * ((R/Rre : ℚ) : ℂ)^3,
            Bi1z := fun i => Masym.Bi1z i * ((R/Rre : ℚ) : ℂ)^3 }
          ⟨Masym.AenCols, List.mem_range'_1.mpr ⟨hover1, by omega⟩,
           le_refl Masym.AenCols⟩]
    rfl
  rw [hsome]
  refine ⟨rfl, rfl, ?_, ?_, ?_, ?_, ?_, ?_, ?_, hnone⟩
  · rw [Option.getD_some, foldl_scale_Aen _ _ _ _ hnd, if_pos hmem]
  · rw [Option.getD_some, foldl_scale_Binm _ _ _ _ hnd]
    simp only [if_pos hmem]
  · rw [Option.getD_some, foldl_scale_BinmLin _ _ _ _ hnd _ _ n hj, if_pos hmem]
  · rw [Option.getD_some, foldl_scale_Amp]
  · rw [Option.getD_some,
        (foldl_scale_Bi1 R Rre nLin (List.range' 1 (npMax nLin)) _).1]
  · rw [Option.getD_some,
        (foldl_scale_Bi1 R Rre nLin (List.range' 1 (npMax nLin)) _).2.1]
  · rw [Option.getD_some,
        (foldl_scale_Bi1 R Rre nLin (List.range' 1 (npMax nLin)) _).2.2]

/-- Witness for C3 (amended): stored radius 2, current radius 1.  The
completing set has one degree and two `Aen` columns (`nprmMax = 1`,
`pMax = 0`); the aborting set keeps two `Aen` columns while its `nLin` extends
to degree 3 (`nprmMax = 1`, `pMax = 2`). -/
theorem C3_reload_scaling_amended_witness :
    ((2 - 1 : ℚ) / 1 > 1/1000000 ∧ [1].get? 0 = some 1
      ∧ npMax [1] < 2 ∧ (2 : ℕ) ≤ npMax [1, 2, 3]) ∧
    ((ReloadMomentsScale 1 2 [1]
        ({ Amp := fun _ => 1, Bi1x := fun _ => 1, Bi1y := fun _ => 1, Bi1z := fun _ => 1,
           AenCols := 2, Aen := fun _ _ => 1, Binm := fun _ => 1, BinmLin := fun _ => 1 }
          : MomentArrays ℂ)).isSome = true
      ∧ ((ReloadMomentsScale 1 2 [1]
          ({ Amp := fun _ => 1, Bi1x := fun _ => 1, Bi1y := fun _ => 1, Bi1z := fun _ => 1,
             AenCols := 2, Aen := fun _ _ => 1, Binm := fun _ => 1, BinmLin := fun _ => 1 }
            : MomentArrays ℂ)).getD
          (false,
           { Amp := fun _ => 1, Bi1x := fun _ => 1, Bi1y := fun _ => 1, Bi1z := fun _ => 1,
             AenCols := 2, Aen := fun _ _ => 1, Binm := fun _ => 1, BinmLin := fun _ => 1 })).1
        = true
      ∧ (((ReloadMomentsScale 1 2 [1]
          ({ Amp := fun _ => 1, Bi1x := fun _ => 1, Bi1y := fun _ => 1, Bi1z := fun _ => 1,
             AenCols := 2, Aen := fun _ _ => 1, Binm := fun _ => 1, BinmLin := fun _ => 1 }
            : MomentArrays ℂ)).getD
          (false,
           { Amp := fun _ => 1, Bi1x := fun _ => 1, Bi1y := fun _ => 1, Bi1z := fun _ => 1,
             AenCols := 2, Aen := fun _ _ => 1, Binm := fun _ => 1, BinmLin := fun _ => 1 })).2.Aen 0 1
        = ({ Amp := fun _ => 1, Bi1x := fun _ => 1, Bi1y := fun _ => 1, Bi1z := fun _ => 1,
             AenCols := 2, Aen := fun _ _ => 1, Binm := fun _ => 1, BinmLin := fun _ => 1 }
            : MomentArrays ℂ).Aen 0 1 * ((1/2 : ℚ) : ℂ)^(1+2))
      ∧ ReloadMomentsScale 1 2 [1, 2, 3]
          ({ Amp := fun _ => 1, Bi1x := fun _ => 1, Bi1y := fun _ => 1, Bi1z := fun _ => 1,
             AenCols := 2, Aen := fun _ _ => 1, Binm := fun _ => 1, BinmLin := fun _ => 1 }
            : MomentArrays ℂ) = none) :=
  by
  have h := C3_reload_scaling_amended 1 2 [1] [1, 2, 3]
    { Amp := fun _ => 1, Bi1x := fun _ => 1, Bi1y := fun _ => 1, Bi1z := fun _ => 1,
      AenCols := 2, Aen := fun _ _ => 1, Binm := fun _ => 1, BinmLin := fun _ => 1 }
    { Amp := fun _ => 1, Bi1x := fun _ => 1, Bi1y := fun _ => 1, Bi1z := fun _ => 1,
      AenCols := 2, Aen := fun _ _ => 1, Binm := fun _ => 1, BinmLin := fun _ => 1 }
    0 0 0 0 0 1 (by norm_num) (by decide) (by decide) (by decide) (by decide)
    (by decide) (by decide)
  exact ⟨⟨by norm_num, by decide, by decide, by decide⟩,
         h.1, h.2.1, h.2.2.1, h.2.2.2.2.2.2.2.2.2⟩

/-! ### Xid coupling-coefficient cache (source lines 496-509)

```
XidLabel = f''
if XidLabel not in EOSlist.loaded.keys():
    nMax = Planet.Magnetic.nprmMax + Planet.Magnetic.pMax
    ...
    Planet.Magnetic.Xid = LoadXid(Planet.Magnetic.nprmMax, Planet.Magnetic.pMax, nMax, ...)
    EOSlist.loaded[XidLabel] = Planet.Magnetic.Xid
    EOSlist.ranges[XidLabel] = f'{nprmMax}x{pMax}x{nMax}'
else:
    Planet.Magnetic.Xid = EOSlist.loaded[XidLabel]
```
-/

/-- The cache key used for the Xid tensor: the *empty* f-string `f''` in the
source, identical for every `(nprmMax, pMax, nMax)` triple. -/
def XidLabel (nprmMax pMax nMax : ℕ) : String := ""

/-- The MoonMag collaborator `get_all_Xid` is external pure data depending only
on its integer degree caps, so the tensor is modelled by the triple it was
built for. -/
def LoadXid (nprmMax pMax nMax : ℕ) : ℕ × ℕ × ℕ := (nprmMax, pMax, nMax)

/-- One fetch-or-build against `EOSlist.loaded` (modelled as an association
list), returning the Xid handed to `Planet.Magnetic.Xid` and the updated
cache. -/
def fetchXid (cache : List (String × (ℕ × ℕ × ℕ))) (nprmMax pMax : ℕ) :
    (ℕ × ℕ × ℕ) × List (String × (ℕ × ℕ × ℕ)) :=
  let nMax := nprmMax + pMax
  match cache.lookup (XidLabel nprmMax pMax nMax) with
  | some xid => (xid, cache)
  | none => (LoadXid nprmMax pMax nMax,
             (XidLabel nprmMax pMax nMax, LoadXid nprmMax pMax nMax) :: cache)

/-- C5. The Xid cache key is the constant empty string `f''`, not the triple
`(nprmMax, pMax, nMax)`: after building Xid for `(1, 2, 3)`, a fetch for the
different triple `(3, 4, 7)` hits the same cache entry and returns the tensor
built for `(1, 2, 3)`.  (The stored `EOSlist.ranges` description
`f'{nprmMax}x{pMax}x{nMax}'` shows the key was meant to identify the triple.) -/
theorem C5_xid_cache_collision :
    (fetchXid (fetchXid [] 1 2).2 3 4).1 = (1, 2, 3)
    ∧ ((1, 2, 3) : ℕ × ℕ × ℕ) ≠ (3, 4, 7)
    ∧ XidLabel 1 2 3 = XidLabel 3 4 7 := by
  refine ⟨rfl, by decide, rfl⟩

/-! ### Linearized moment ordering (source lines 97-99 and 159-163)

`BinmLin_nT[:, :Nnm] = [[Binm_nT[iPeak, int(m<0), n, m] for n, m in zip(nLin, mLin)] ...]` -/

/-- The `(degree, order)` pairs of the linearized moment list, in the
`zip(nLin, mLin)` order used to build `BinmLin_nT`. -/
def nmPairs (nMax : ℕ) : List (ℕ × ℤ) :=
  (nLinList nMax).zip (mLinList nMax)

theorem nLinList_succ (N : ℕ) :
    nLinList (N+1)
      = nLinList N ++ (List.range (2*(N+1)+1)).map (fun _ => N+1) := by
  unfold nLinList
  rw [List.range_succ, List.flatMap_append, List.flatMap_cons, List.flatMap_nil,
      List.append_nil]

theorem mLinList_succ (N : ℕ) :
    mLinList (N+1)
      = mLinList N
        ++ (List.range (2*(N+1)+1)).map (fun j : ℕ => (j : ℤ) - ((N : ℤ)+1)) := by
  unfold mLinList
  rw [List.range_succ, List.flatMap_append, List.flatMap_cons, List.flatMap_nil,
      List.append_nil]

theorem length_nLinList (N : ℕ) : (nLinList N).length = N*N + 2*N := by
  induction N with
  | zero => rfl
  | succ N ih =>
    rw [nLinList_succ, List.length_append, ih, List.length_map, List.length_range]
    ring

theorem length_mLinList (N : ℕ) : (mLinList N).length = N*N + 2*N := by
  induction N with
  | zero => rfl
  | succ N ih =>
    rw [mLinList_succ, List.length_append, ih, List.length_map, List.length_range]
    ring

theorem nmPairs_succ (N : ℕ) :
    nmPairs (N+1)
      = nmPairs N
        ++ (List.range (2*(N+1)+1)).map (fun j : ℕ => (N+1, (j : ℤ) - ((N : ℤ)+1))) := by
  unfold nmPairs
  rw [nLinList_succ, mLinList_succ,
      List.zip_append (by rw [length_nLinList, length_mLinList]),
      List.zip_map']

theorem length_nmPairs (N : ℕ) : (nmPairs N).length = N*N + 2*N := by
  unfold nmPairs
  rw [List.length_zip, length_nLinList, length_mLinList, min_self]

/-- The `(n, m)` entry of the linearized ordering sits at 0-based index
`n² - 1 + (m + n)`, i.e. `n² + n + m - 1`. -/
theorem nmPairs_get (N n : ℕ) (m : ℤ)
    (h1 : 1 ≤ n) (h2 : n ≤ N) (hm1 : -(n:ℤ) ≤ m) (hm2 : m ≤ n) :
    (nmPairs N).get? (n*n - 1 + (m + n).toNat) = some (n, m) := by
  induction N with
  | zero => omega
  | succ N ih =>
    rw [nmPairs_succ, List.get?_eq_getElem?, List.getElem?_append]
    by_cases hn : n ≤ N
    · have hsq : n*n ≤ N*N := Nat.mul_le_mul hn hn
      have hpos : 1*1 ≤ n*n := Nat.mul_le_mul h1 h1
      rw [if_pos (by rw [length_nmPairs]; omega), ← List.get?_eq_getElem?]
      exact ih hn
    · have hnN : n = N + 1 := by omega
      subst hnN
      have hsq : (N+1)*(N+1) = N*N + 2*N + 1 := by ring
      rw [if_neg (by rw [length_nmPairs]; omega), length_nmPairs, List.getElem?_map]
      have harg : (N+1)*(N+1) - 1 + (m + ((N+1 : ℕ) : ℤ)).toNat - (N*N + 2*N)
          = (m + ((N+1 : ℕ) : ℤ)).toNat := by omega
      rw [harg, List.getElem?_range (by omega), Option.map_some']
      simp only [Option.some.injEq, Prod.mk.injEq]
      exact ⟨trivial, by omega⟩

theorem nmPairs_nodup (N : ℕ) : (nmPairs N).Nodup := by
  induction N with
  | zero => exact List.nodup_nil
  | succ N ih =>
    rw [nmPairs_succ]
    refine List.Nodup.append ih ?_ ?_
    · refine List.Nodup.map ?_ (List.nodup_range _)
      intro a b hab
      have := congrArg Prod.snd hab
      simp only at this
      omega
    · intro x hx hx2
      simp only [List.mem_map, List.mem_range] at hx2
      obtain ⟨j, _, rfl⟩ := hx2
      unfold nmPairs at hx
      obtain ⟨hn, _⟩ := List.of_mem_zip hx
      exact absurd (mem_nLinList.mp hn).2 (by omega)

/-- C6 counterexample: for `nMax = 1` the `(n, m) = (1, -1)` entry sits at
position 0 of the linearized list, not at `n² + n + m = 1`; position 1 holds
`(1, 0)` instead. -/
theorem C6_linear_index_counterexample :
    (nmPairs 1).get? 0 = some (1, -1)
    ∧ (nmPairs 1).get? 1 = some (1, 0)
    ∧ ¬ (nmPairs 1).get? ((1*1 + 1 + -1 : ℤ).toNat) = some (1, -1) := by decide

/-- C6 (amended). For every degree `n` in `1..nMax` and order `-n ≤ m ≤ n`,
the unique 0-based position of the `(n, m)` entry in the linearized moment
list equals `n² + n + m - 1` (equivalently, `n² + n + m` counts its 1-based
position). -/
theorem C6_linear_index_amended (nMax n idx : ℕ) (m : ℤ)
    (h1 : 1 ≤ n) (h2 : n ≤ nMax) (hm1 : -(n:ℤ) ≤ m) (hm2 : m ≤ n)
    (hidx : (idx : ℤ) = (n:ℤ)^2 + n + m - 1) :
    (nmPairs nMax).get? idx = some (n, m)
    ∧ ∀ idx', (nmPairs nMax).get? idx' = some (n, m) → idx' = idx := by
  have hnn : ((n*n : ℕ) : ℤ) + n + m - 1 = (idx : ℤ) := by
    rw [hidx]; push_cast; ring
  have hpos : 1*1 ≤ n*n := Nat.mul_le_mul h1 h1
  have hidx' : idx = n*n - 1 + (m + n).toNat := by omega
  have hget : (nmPairs nMax).get? idx = some (n, m) := by
    rw [hidx']
    exact nmPairs_get nMax n m h1 h2 hm1 hm2
  refine ⟨hget, fun idx' hget' => ?_⟩
  have hlt' : idx' < (nmPairs nMax).length := by
    obtain ⟨hh, _⟩ := List.get?_eq_some.mp hget'
    exact hh
  exact List.get?_inj hlt' (nmPairs_nodup nMax) (hget'.trans hget.symm)

/-- Witness for C6 (amended): `(n, m) = (1, 0)` at position 1 for `nMax = 1`. -/
theorem C6_linear_index_amended_witness :
    ((1:ℤ) = (1:ℤ)^2 + 1 + 0 - 1) ∧
    ((nmPairs 1).get? 1 = some (1, 0)
      ∧ ∀ idx', (nmPairs 1).get? idx' = some (1, 0) → idx' = 1) :=
  ⟨by decide,
   C6_linear_index_amended 1 1 1 0 (by decide) (by decide) (by decide) (by decide)
     (by decide)⟩

/-! ### SetupInduction pMax handling for asymmetry (source lines 481-492)

```
if Params.CALC_ASYM:
    if Planet.Magnetic.pMax == 0:
        Params.CALC_ASYM = False
        log.warning('Magnetic.pMax is 0, asymmetry calculations will be skipped.')
        ...
    else:
        if Planet.Magnetic.pMax is not None and (Planet.Magnetic.pMax < 2 and not SigParams.ALLOW_LOW_PMAX):
            log.warning(...)
            Planet.Magnetic.pMax = 2
        ...
```
-/

/-- The `pMax` adjustment taken when `CALC_ASYM` is requested: returns
(`CALC_ASYM` still on, resulting `pMax`); `none` models `pMax is None`. -/
def setupAsymPmax (pMax : Option ℕ) (allowLowPmax : Bool) : Bool × Option ℕ :=
  match pMax with
  | some 0 => (false, some 0)
  | some p => if p < 2 && !allowLowPmax then (true, some 2) else (true, some p)
  | none => (true, none)

/-- C7 counterexample: at the claimed boundary case `pMax = 0` with the
override unset, `pMax` is left at 0 (asymmetry is disabled instead), not
forced to 2. -/
theorem C7_pmax_zero_counterexample :
    (setupAsymPmax (some 0) false).2 = some 0
    ∧ (setupAsymPmax (some 0) false).1 = false
    ∧ (some 0 : Option ℕ) ≠ some 2 := by decide

/-- C7 (amended). When asymmetry is requested, the low-pMax override is unset
and the computed `pMax` is below 2 but nonzero (i.e. `pMax = 1`), setup forces
`pMax` to 2; at `pMax = 0` asymmetry is instead switched off entirely and
`pMax` stays 0. -/
theorem C7_pmax_force_amended (p : ℕ) (h0 : 0 < p) (h2 : p < 2) :
    setupAsymPmax (some p) false = (true, some 2)
    ∧ setupAsymPmax (some 0) false = (false, some 0) := by
  have hp : p = 1 := by omega
  subst hp
  exact ⟨rfl, rfl⟩

/-- Witness for C7 (amended) at `p = 1`. -/
theorem C7_pmax_force_amended_witness :
    ((0:ℕ) < 1 ∧ (1:ℕ) < 2) ∧
    (setupAsymPmax (some 1) false = (true, some 2)
      ∧ setupAsymPmax (some 0) false = (false, some 0)) :=
  ⟨⟨by decide, by decide⟩, C7_pmax_force_amended 1 (by decide) (by decide)⟩

/-! ### SetupInduction frozen-ocean check (source lines 400-408)

```
indsLiq = np.where(np.flip(Planet.phase) == 0)[0]
if np.size(indsLiq) == 0 and not Params.Induct.inductOtype == 'sigma':
    if Params.DO_INDUCTOGRAM:
        log.info(...)
        Planet.Do.VALID = False
        ...
    elif Params.Sig.REDUCED_INDUCT and not Planet.Do.NO_H2O:
        log.debug(...)
```
-/

/-- The inputs consulted by the frozen-ocean check. -/
structure FrozenCheckInput where
  phase : List ℤ
  inductOtype : String
  DO_INDUCTOGRAM : Bool
  REDUCED_INDUCT : Bool
  NO_H2O : Bool
  VALID : Bool

/-- `indsLiq = np.where(np.flip(Planet.phase) == 0)[0]` (source line 400). -/
def indsLiq (phase : List ℤ) : List ℕ :=
  (List.range phase.reverse.length).filter
    (fun i => decide (phase.reverse.get? i = some 0))

/-- The frozen-ocean check (source lines 400-408): the value of
`Planet.Do.VALID` after it runs.  The `elif` branch only logs. -/
def frozenOceanValid (s : FrozenCheckInput) : Bool :=
  if (indsLiq s.phase).length = 0 ∧ ¬ s.inductOtype = "sigma" then
    if s.DO_INDUCTOGRAM then false
    else if s.REDUCED_INDUCT ∧ ¬ s.NO_H2O then s.VALID
    else s.VALID
  else s.VALID

/-- C8 counterexample: a profile with zero liquid layers, a non-`'sigma'`
induction mode, no inductogram in progress and reduced induction off keeps
`Planet.Do.VALID = True`: the invalid flag is only ever set inside the
`DO_INDUCTOGRAM` branch. -/
theorem C8_frozen_ocean_counterexample :
    frozenOceanValid
        { phase := [1, 2], inductOtype := "rho", DO_INDUCTOGRAM := false,
          REDUCED_INDUCT := false, NO_H2O := false, VALID := true } = true
    ∧ (indsLiq [1, 2]).length = 0
    ∧ ("rho" : String) ≠ "sigma" := by decide

/-- C8 (amended). With zero liquid-phase layers and a run not in
assign-sigma-directly mode, `SetupInduction` sets `Planet.Do.VALID` to `False`
exactly when an inductogram is in progress (`DO_INDUCTOGRAM`); in every other
case — including reduced-induction runs on watery bodies, which only log and
skip the layer reduction — `VALID` is left unchanged. -/
theorem C8_frozen_ocean_amended (s : FrozenCheckInput)
    (hliq : (indsLiq s.phase).length = 0) (hot : s.inductOtype ≠ "sigma") :
    frozenOceanValid s = if s.DO_INDUCTOGRAM then false else s.VALID := by
  unfold frozenOceanValid
  rw [if_pos ⟨hliq, hot⟩, ite_self]

/-- Witness for C8 (amended): frozen ocean during an inductogram invalidates
the profile. -/
theorem C8_frozen_ocean_amended_witness :
    ((indsLiq [1, 2]).length = 0 ∧ ("rho" : String) ≠ "sigma") ∧
    frozenOceanValid
        { phase := [1, 2], inductOtype := "rho", DO_INDUCTOGRAM := true,
          REDUCED_INDUCT := false, NO_H2O := false, VALID := true }
      = if ({ phase := [1, 2], inductOtype := "rho", DO_INDUCTOGRAM := true,
              REDUCED_INDUCT := false, NO_H2O := false, VALID := true }
            : FrozenCheckInput).DO_INDUCTOGRAM then false else true :=
  ⟨⟨by decide, by decide⟩,
   C8_frozen_ocean_amended
     { phase := [1, 2], inductOtype := "rho", DO_INDUCTOGRAM := true,
       REDUCED_INDUCT := false, NO_H2O := false, VALID := true }
     (by decide) (by decide)⟩

/-! ### SetAsymShape / SetGravShape degree-0 terms
(source lines 751-761, 687-690)

Concentric mode:
```
for p in range(1, Planet.Magnetic.pMax+1):
    ...
    chipq_m = GeodesyNorm2chipq(p, Cpq_m, Spq_m)
    for iLayer, rScale in enumerate(radialScale):
        Planet.Magnetic.asymShape_m[iLayer, 0, 0, 0] = Planet.Magnetic.rSigChange_m[iLayer]
        Planet.Magnetic.asymShape_m[iLayer, :, p, :p+1] = chipq_m * rScale
```
`SetGravShape`:
```
radialScale = Planet.Magnetic.rSigChange_m / Planet.Bulk.R_m
for iLayer, rScale in enumerate(radialScale):
    Planet.Magnetic.gravShape_m[iLayer, :, p, :p+1] = g_chipq_m * rScale   # p = 2
```
with `gravShape_m` initialized as `np.zeros_like(asymShape_m)` (line 835). -/

/-- Writes of the concentric-mode shape fill: index order `(p, iLayer)`, the
degree-0 term set to the boundary radius and the `(p, q)` block to the
renormalized coefficients scaled by `rSigChange[iLayer]/rAsym`.
`GeodesyNorm2chipq` is the external MoonMag renormalization, abstracted as
`chipq p s q`. -/
def concentricWrites (nBds pMax : ℕ) (rSig : ℕ → ℚ) (rAsym : ℚ)
    (chipq : ℕ → ℕ → ℕ → K) : List (Cell × K) :=
  (List.range' 1 pMax).flatMap (fun p =>
    (List.range nBds).flatMap (fun iLayer =>
      ((iLayer, 0, 0, 0), ((rSig iLayer : ℚ) : K))
        :: ((List.range 2).flatMap (fun s =>
            (List.range (p+1)).map (fun q =>
              ((iLayer, s, p, q), chipq p s q * ((rSig iLayer / rAsym : ℚ) : K)))))))

/-- The concentric `asymShape_m` array (zero-initialized, then filled). -/
def concentricAsymShape (nBds pMax : ℕ) (rSig : ℕ → ℚ) (rAsym : ℚ)
    (chipq : ℕ → ℕ → ℕ → K) : Cell → K :=
  applyWrites (fun _ => 0) (concentricWrites nBds pMax rSig rAsym chipq)

/-- Writes of `SetGravShape`: only the `p = 2` block `[iLayer, :, 2, :3]` is
ever written; `g_chipq_m` is abstracted as `gchipq s q`. -/
def gravWrites (nBds : ℕ) (rSig : ℕ → ℚ) (R_m : ℚ) (gchipq : ℕ → ℕ → K) :
    List (Cell × K) :=
  (List.range nBds).flatMap (fun iLayer =>
    (List.range 2).flatMap (fun s =>
      (List.range 3).map (fun q =>
        ((iLayer, s, 2, q), gchipq s q * ((rSig iLayer / R_m : ℚ) : K)))))

/-- The `gravShape_m` array (zero-initialized by `np.zeros_like`, then filled
by `SetGravShape`). -/
def gravShape (nBds : ℕ) (rSig : ℕ → ℚ) (R_m : ℚ) (gchipq : ℕ → ℕ → K) :
    Cell → K :=
  applyWrites (fun _ => 0) (gravWrites nBds rSig R_m gchipq)

/-- The gravity shape array's degree-0 term keeps its zero initialization for
every layer: no write of `SetGravShape` targets `[iLayer, 0, 0, 0]`. -/
theorem gravShape_degree0 (nBds iLayer : ℕ) (rSig : ℕ → ℚ) (R_m : ℚ)
    (gchipq : ℕ → ℕ → K) :
    gravShape nBds rSig R_m gchipq (iLayer, 0, 0, 0) = 0 := by
  apply applyWrites_of_not_written
  intro w hw
  simp only [gravWrites, List.mem_flatMap, List.mem_map, List.mem_range] at hw
  obtain ⟨iL, _, s, _, q, _, rfl⟩ := hw
  intro hc
  have h2 : (2 : ℕ) = 0 := congrArg (fun c : Cell => c.2.2.1) hc
  exact absurd h2 (by omega)

/-- C9 counterexample: with a single boundary at radius 1500 km scale, the
gravity-derived shape array's degree-0, order-0 coefficient is `0`, not the
boundary radius `rSigChange[0] = 1500`, refuting the claim for the
gravity-derived array. -/
theorem C9_gravshape_zero_counterexample :
    gravShape 1 (fun _ => 1500) 1500 (fun _ _ => (1 : ℂ)) (0, 0, 0, 0) = 0
    ∧ (0 : ℂ) ≠ ((1500 : ℚ) : ℂ) := by
  constructor
  · exact gravShape_degree0 1 0 (fun _ => 1500) 1500 (fun _ _ => (1 : ℂ))
  · intro h
    rw [show ((1500 : ℚ) : ℂ) = (1500 : ℂ) by norm_num] at h
    exact absurd h.symm (by norm_num)

/-- C9 (amended). In concentric mode with `pMax ≥ 1`, every boundary's
asymmetric-shape degree-0, order-0 coefficient equals that boundary's
reference radius `rSigChange_m[iLayer]`; the gravity-derived shape array's
degree-0 coefficient is instead left at zero for every boundary (and in
per-boundary mode only each file's nearest boundary receives its radius). -/
theorem C9_shape_degree0_amended (nBds pMax iLayer : ℕ) (rSig : ℕ → ℚ)
    (rAsym R_m : ℚ) (chipq : ℕ → ℕ → ℕ → ℂ) (gchipq : ℕ → ℕ → ℂ)
    (hp : 1 ≤ pMax) (hi : iLayer < nBds) :
    concentricAsymShape nBds pMax rSig rAsym chipq (iLayer, 0, 0, 0)
        = ((rSig iLayer : ℚ) : ℂ)
    ∧ gravShape nBds rSig R_m gchipq (iLayer, 0, 0, 0) = 0 := by
  refine ⟨?_, gravShape_degree0 nBds iLayer rSig R_m gchipq⟩
  apply applyWrites_of_written
  · refine ⟨((iLayer, 0, 0, 0), ((rSig iLayer : ℚ) : ℂ)), ?_, rfl⟩
    simp only [concentricWrites, List.mem_flatMap, List.mem_cons, List.mem_range,
               List.mem_range'_1, List.mem_map]
    exact ⟨1, ⟨le_refl 1, by omega⟩, iLayer, hi, Or.inl rfl⟩
  · intro w hw hc
    simp only [concentricWrites, List.mem_flatMap, List.mem_cons, List.mem_range,
               List.mem_range'_1, List.mem_map] at hw
    obtain ⟨p, ⟨hp1, _⟩, iL, _, hw⟩ := hw
    rcases hw with rfl | hw
    · have : iL = iLayer := congrArg (fun c : Cell => c.1) hc
      rw [this]
    · obtain ⟨s, _, q, _, rfl⟩ := hw
      have hp0 : p = 0 := congrArg (fun c : Cell => c.2.2.1) hc
      exact absurd hp0 (by omega)

/-- Witness for C9 (amended): one boundary at radius 1500, `pMax = 2`. -/
theorem C9_shape_degree0_amended_witness :
    ((1 : ℕ) ≤ 2 ∧ (0 : ℕ) < 1) ∧
    (concentricAsymShape 1 2 (fun _ => 1500) 1500 (fun _ _ _ => (1 : ℂ)) (0, 0, 0, 0)
        = ((1500 : ℚ) : ℂ)
      ∧ gravShape 1 (fun _ => 1500) 1500 (fun _ _ => (1 : ℂ)) (0, 0, 0, 0) = 0) :=
  ⟨⟨by decide, by decide⟩,
   C9_shape_degree0_amended 1 2 0 (fun _ => 1500) 1500 1500
     (fun _ _ _ => (1 : ℂ)) (fun _ _ => (1 : ℂ)) (by decide) (by decide)⟩

end PlanetProfile
